import Mathlib

/-!
Verification of the buddhabrot-renderer core (src/color.rs, src/sample.rs)
against its natural-language specification.

Modelling conventions:
* The source's `Float` (`f32`) channel magnitudes and complex coordinates are
  modelled as exact rationals `ℚ`; claims checked here are structural
  (control flow, which values are produced) and do not depend on rounding.
* A complex number is a pair `ℚ × ℚ` of (real, imaginary) parts; the
  complex-arithmetic collaborator (`src/complex.rs`, not part of the core
  sources) is modelled from the spec: construction from a (re, im) pair and
  componentwise addition, subtraction and scalar multiplication/division.
* Fatal failures (the source's process-terminating branch in `Rg::one`)
  are modelled with `Option`: `none` is the fatal branch.
-/

namespace Buddhabrot

/-- The channel magnitude scalar: `pub type Float = f32` from color.rs,
modelled as an exact rational. -/
abbrev Float : Type := ℚ

/-- The `ColorChannel` enum from color.rs. -/
inductive ColorChannel : Type
  | Red
  | Green
  | Blue
deriving DecidableEq, Repr

/-- `impl Color for Float`: `empty` returns `0.0`. -/
def Float.empty : Float := 0

/-- `impl Color for Float`: `add` is `*self += rhs`, modelled as a pure sum. -/
def Float.add (x rhs : Float) : Float := x + rhs

/-- `impl Color for Float`: elementwise `max`. -/
def Float.cmax (x rhs : Float) : Float := max x rhs

/-- `impl Color for Float`: `map` applies `f` to the single channel. -/
def Float.map (x : Float) (f : Float → Float) : Float := f x

/-- `impl Color for Float`: `one(_channel)` ignores the selector and returns
`1.0`; it never reaches a fatal branch, so it is always `some`. -/
def Float.one (_channel : ColorChannel) : Option Float := some 1

/-- `impl Color for Float`: `cdiv_assign` is `*self /= rhs`. -/
def Float.cdiv_assign (x rhs : Float) : Float := x / rhs

/-- `impl Color for Float`: `to_tuple_rgb` duplicates the single channel into
all three slots. -/
def Float.to_tuple_rgb (x : Float) : Float × Float × Float := (x, x, x)

/-- The two-channel color `struct Rg` from color.rs. -/
structure Rg where
  r : Float
  g : Float
deriving DecidableEq, Repr

/-- `Rg::new`. -/
def Rg.new (r g : Float) : Rg := ⟨r, g⟩

/-- `impl Color for Rg`: `empty`. -/
def Rg.empty : Rg := Rg.new 0 0

/-- `impl Color for Rg`: componentwise `add`. -/
def Rg.add (x rhs : Rg) : Rg := ⟨x.r + rhs.r, x.g + rhs.g⟩

/-- `impl Color for Rg`: componentwise `max`. -/
def Rg.cmax (x rhs : Rg) : Rg := ⟨max x.r rhs.r, max x.g rhs.g⟩

/-- `impl Color for Rg`: componentwise `map`. -/
def Rg.map (x : Rg) (f : Float → Float) : Rg := ⟨f x.r, f x.g⟩

/-- `impl Color for Rg`: `one` builds the unit vector for `Red` or `Green`
and hits the fatal branch (modelled as `none`) for any other selector. -/
def Rg.one (channel : ColorChannel) : Option Rg :=
  match channel with
  | ColorChannel.Red => some (Rg.new 1 0)
  | ColorChannel.Green => some (Rg.new 0 1)
  | _ => none

/-- `impl Color for Rg`: componentwise `cdiv_assign`. -/
def Rg.cdiv_assign (x rhs : Rg) : Rg := ⟨x.r / rhs.r, x.g / rhs.g⟩

/-- `impl Color for Rg`: `to_tuple_rgb` fills the absent blue slot with `0.0`. -/
def Rg.to_tuple_rgb (x : Rg) : Float × Float × Float := (x.r, x.g, 0)

/-- The three-channel color `struct Rgb` from color.rs. -/
structure Rgb where
  r : Float
  g : Float
  b : Float
deriving DecidableEq, Repr

/-- `Rgb::new`. -/
def Rgb.new (r g b : Float) : Rgb := ⟨r, g, b⟩

/-- `impl From<Rgb> for (Float, Float)` from color.rs: the narrowing
conversion keeping `(r, g)` and dropping `b`. -/
def Rgb.toPairRg (v : Rgb) : Float × Float := (v.r, v.g)

/-- `impl From<Rgb> for (Float, Float, Float)` from color.rs. -/
def Rgb.toTriple (v : Rgb) : Float × Float × Float := (v.r, v.g, v.b)

/-- `impl Color for Rgb`: `empty`. -/
def Rgb.empty : Rgb := Rgb.new 0 0 0

/-- `impl Color for Rgb`: componentwise `add`. -/
def Rgb.add (x rhs : Rgb) : Rgb := ⟨x.r + rhs.r, x.g + rhs.g, x.b + rhs.b⟩

/-- `impl Color for Rgb`: componentwise `max`. -/
def Rgb.cmax (x rhs : Rgb) : Rgb := ⟨max x.r rhs.r, max x.g rhs.g, max x.b rhs.b⟩

/-- `impl Color for Rgb`: componentwise `map`. -/
def Rgb.map (x : Rgb) (f : Float → Float) : Rgb := ⟨f x.r, f x.g, f x.b⟩

/-- `impl Color for Rgb`: `one` builds the unit vector for every selector;
the match is exhaustive, so no fatal branch exists. -/
def Rgb.one (channel : ColorChannel) : Option Rgb :=
  match channel with
  | ColorChannel.Red => some (Rgb.new 1 0 0)
  | ColorChannel.Green => some (Rgb.new 0 1 0)
  | ColorChannel.Blue => some (Rgb.new 0 0 1)

/-- `impl Color for Rgb`: componentwise `cdiv_assign`. -/
def Rgb.cdiv_assign (x rhs : Rgb) : Rgb := ⟨x.r / rhs.r, x.g / rhs.g, x.b / rhs.b⟩

/-- `impl Color for Rgb`: `to_tuple_rgb` is `self.into()`. -/
def Rgb.to_tuple_rgb (x : Rgb) : Float × Float × Float := x.toTriple

/-- The `Color` trait from color.rs, as a capability class over the three
concrete arities. `one` is `Option`-valued because `Rg::one` has a fatal
branch. -/
class Color (α : Type) where
  empty : α
  add : α → α → α
  cmax : α → α → α
  map : α → (Float → Float) → α
  one : ColorChannel → Option α
  cdiv_assign : α → α → α
  to_tuple_rgb : α → Float × Float × Float

instance : Color Float where
  empty := Float.empty
  add := Float.add
  cmax := Float.cmax
  map := Float.map
  one := Float.one
  cdiv_assign := Float.cdiv_assign
  to_tuple_rgb := Float.to_tuple_rgb

instance : Color Rg where
  empty := Rg.empty
  add := Rg.add
  cmax := Rg.cmax
  map := Rg.map
  one := Rg.one
  cdiv_assign := Rg.cdiv_assign
  to_tuple_rgb := Rg.to_tuple_rgb

instance : Color Rgb where
  empty := Rgb.empty
  add := Rgb.add
  cmax := Rgb.cmax
  map := Rgb.map
  one := Rgb.one
  cdiv_assign := Rgb.cdiv_assign
  to_tuple_rgb := Rgb.to_tuple_rgb

/-- Per-worker sample count from sample.rs line 50: `iters.div_ceil(cpus)`,
with `div_ceil` the Rust standard-library ceiling division
`(a + b - 1) / b` on unsigned integers. -/
def workerSamples (iters cpus : ℕ) : ℕ := (iters + cpus - 1) / cpus

/-- C2 counterexample: on the 1-channel arity, `one` with the `Blue`
selector (a channel not present in a 1-channel value) does not fail at all:
it returns the value `1.0`. -/
theorem float_one_blue_cex :
    Float.one ColorChannel.Blue = some 1 ∧ Float.one ColorChannel.Blue ≠ none :=
  ⟨rfl, by simp [Float.one]⟩

/-- C2 (amended): requesting a selector absent from the arity fails loudly
only on the 2-channel arity: `Rg::one Blue` takes the fatal branch. The
3-channel arity accepts every selector, and the 1-channel arity accepts every
selector as well, always returning the unit value `1.0` instead of failing. -/
theorem one_invalid_channel_amended :
    Rg.one ColorChannel.Blue = none
    ∧ (∀ ch : ColorChannel, Rgb.one ch ≠ none)
    ∧ (∀ ch : ColorChannel, Float.one ch = some 1) := by
  refine ⟨rfl, ?_, ?_⟩
  · intro ch; cases ch <;> simp [Rgb.one]
  · intro ch; rfl

/-- C3 counterexample: on the 1-channel arity the selector `Red` is accepted
by `one`, and `one(Red).to_tuple_rgb()` is the broadcast `(1, 1, 1)`: its
second coordinate is `1.0`, not `0.0`, so the tuple does not have exactly one
coordinate equal to `1.0`. -/
theorem float_one_tuple_rgb_cex :
    Option.map Float.to_tuple_rgb (Float.one ColorChannel.Red)
      = some ((1 : ℚ), (1 : ℚ), (1 : ℚ))
    ∧ ((1 : ℚ), (1 : ℚ), (1 : ℚ)).2.1 ≠ 0 :=
  ⟨rfl, by norm_num⟩

/-- C3 (amended): for the 2- and 3-channel arities and every selector valid
for the arity, `one(channel).to_tuple_rgb()` has exactly one coordinate equal
to `1.0`, at the channel's position, and the rest `0.0`; for the 1-channel
arity, every selector is accepted and `one(channel).to_tuple_rgb()` is the
grayscale broadcast `(1, 1, 1)`. -/
theorem one_to_tuple_rgb_amended :
    Option.map Rg.to_tuple_rgb (Rg.one ColorChannel.Red) = some (1, 0, 0)
    ∧ Option.map Rg.to_tuple_rgb (Rg.one ColorChannel.Green) = some (0, 1, 0)
    ∧ Option.map Rgb.to_tuple_rgb (Rgb.one ColorChannel.Red) = some (1, 0, 0)
    ∧ Option.map Rgb.to_tuple_rgb (Rgb.one ColorChannel.Green) = some (0, 1, 0)
    ∧ Option.map Rgb.to_tuple_rgb (Rgb.one ColorChannel.Blue) = some (0, 0, 1)
    ∧ ∀ ch : ColorChannel,
        Option.map Float.to_tuple_rgb (Float.one ch) = some (1, 1, 1) := by
  refine ⟨rfl, rfl, rfl, rfl, rfl, ?_⟩
  intro ch; rfl

/-- C8: for every concrete color arity, `empty()` is a two-sided additive
identity for `add`. -/
theorem empty_add_identity :
    (∀ x : Float, Float.add Float.empty x = x ∧ Float.add x Float.empty = x)
    ∧ (∀ x : Rg, Rg.add Rg.empty x = x ∧ Rg.add x Rg.empty = x)
    ∧ (∀ x : Rgb, Rgb.add Rgb.empty x = x ∧ Rgb.add x Rgb.empty = x) := by
  refine ⟨?_, ?_, ?_⟩
  · intro x
    constructor <;> simp [Float.add, Float.empty]
  · intro x
    cases x with
    | mk r g => constructor <;> simp [Rg.add, Rg.empty, Rg.new]
  · intro x
    cases x with
    | mk r g b => constructor <;> simp [Rgb.add, Rgb.empty, Rgb.new]

/-- C10: the code's narrowing conversion from the 3-channel `Rgb` to a
2-channel `(Float, Float)` tuple returns `(r, g)` for every input, silently
discarding the blue channel. -/
theorem rgb_to_pair_discards_blue :
    ∀ r g b : Float, Rgb.toPairRg (Rgb.new r g b) = (r, g) := by
  intro r g b; rfl

/-- C7: with `iters = size * m` and `cpus ≥ 1` workers each performing
`workerSamples iters cpus = ceil(iters / cpus)` samples, the total sample
count `cpus * workerSamples iters cpus` is at least `iters` and exceeds it by
at most `cpus - 1`. -/
theorem total_samples_bounds (size m cpus : ℕ) (hc : 1 ≤ cpus) :
    size * m ≤ cpus * workerSamples (size * m) cpus
    ∧ cpus * workerSamples (size * m) cpus ≤ size * m + (cpus - 1) := by
  set iters := size * m with hiters
  have h1 : cpus * ((iters + cpus - 1) / cpus) + (iters + cpus - 1) % cpus
      = iters + cpus - 1 := Nat.div_add_mod (iters + cpus - 1) cpus
  have h2 : (iters + cpus - 1) % cpus < cpus :=
    Nat.mod_lt (iters + cpus - 1) (by omega)
  have h3 : cpus * ((iters + cpus - 1) / cpus)
      = iters + cpus - 1 - (iters + cpus - 1) % cpus :=
    Nat.eq_sub_of_add_eq h1
  unfold workerSamples
  rw [h3]
  omega

/-- Concrete instantiation of the C7 bounds: `size = 10`, `m = 3`,
`cpus = 4` gives `30 ≤ 4 * 8 = 32 ≤ 30 + 3`. -/
theorem total_samples_bounds_witness :
    10 * 3 ≤ 4 * workerSamples (10 * 3) 4
    ∧ 4 * workerSamples (10 * 3) 4 ≤ 10 * 3 + (4 - 1) :=
  total_samples_bounds 10 3 4 (by norm_num)

/-- Modelled from the spec: a complex number from the collaborator
`src/complex.rs` (not among the core sources) is a `(re, im)` pair. -/
abbrev Cplx : Type := ℚ × ℚ

/-- One update of the recurrence in `mandelbrot` (sample.rs): the new
imaginary part `2·re·im + c.im` is computed from the old parts, then the new
real part `re² - im² + c.re` from the cached old squares. -/
def cstep (c z : Cplx) : Cplx :=
  (z.1 * z.1 - z.2 * z.2 + c.1, 2 * z.1 * z.2 + c.2)

/-- Squared magnitude `z_re² + z_im²` as computed in `mandelbrot`. -/
def normSq (z : Cplx) : ℚ := z.1 * z.1 + z.2 * z.2

/-- The loop of `mandelbrot` from sample.rs, with the remaining iteration
count explicit: each pass pushes the current iterate, updates it via `cstep`,
and returns the accumulated list as soon as the squared magnitude of the
updated iterate exceeds `4`; a completed loop returns the empty list. -/
def mandelbrotAux (c : Cplx) : ℕ → Cplx → List Cplx → List Cplx
  | 0, _, _ => []
  | n + 1, z, acc =>
    if 4 < normSq (cstep c z) then acc ++ [z]
    else mandelbrotAux c n (cstep c z) (acc ++ [z])

/-- `fn mandelbrot(c, n)` from sample.rs: the iterate starts at `c` itself
and the accumulator starts empty. -/
def mandelbrot (c : Cplx) (n : ℕ) : List Cplx := mandelbrotAux c n c []

/-- The orbit of the recurrence: `orbitZ c k` is the iterate after `k`
updates, starting from `z₀ = c`. -/
def orbitZ (c : Cplx) : ℕ → Cplx
  | 0 => c
  | k + 1 => cstep c (orbitZ c k)

/-- If no iterate with index in `(k, k + n]` exceeds squared magnitude 4,
the loop runs to completion and returns the empty list. -/
theorem mandelbrotAux_no_escape (c : Cplx) :
    ∀ (n k : ℕ) (acc : List Cplx),
      (∀ j, k < j → j ≤ k + n → normSq (orbitZ c j) ≤ 4) →
      mandelbrotAux c n (orbitZ c k) acc = [] := by
  intro n
  induction n with
  | zero => intro k acc _; rfl
  | succ n ih =>
    intro k acc h
    have hk1 : normSq (orbitZ c (k + 1)) ≤ 4 := h (k + 1) (by omega) (by omega)
    have hstep : cstep c (orbitZ c k) = orbitZ c (k + 1) := rfl
    rw [mandelbrotAux, hstep, if_neg (not_lt.mpr hk1)]
    exact ih (k + 1) (acc ++ [orbitZ c k]) (fun j h1 h2 => h j (by omega) (by omega))

/-- If `e` is the first index past `k` whose iterate exceeds squared
magnitude 4, and `e` is within the remaining budget, the loop returns the
accumulator extended by the iterates with indices `k, …, e - 1`. -/
theorem mandelbrotAux_escape (c : Cplx) (e : ℕ) (he : 4 < normSq (orbitZ c e)) :
    ∀ (n k : ℕ) (acc : List Cplx), k < e → e ≤ k + n →
      (∀ j, k < j → j < e → normSq (orbitZ c j) ≤ 4) →
      mandelbrotAux c n (orbitZ c k) acc
        = acc ++ (List.range' k (e - k)).map (orbitZ c) := by
  intro n
  induction n with
  | zero => intro k acc hk hke _; omega
  | succ n ih =>
    intro k acc hk hke hmin
    have hstep : cstep c (orbitZ c k) = orbitZ c (k + 1) := rfl
    by_cases hek : e = k + 1
    · subst hek
      rw [mandelbrotAux, hstep, if_pos he]
      have hr : k + 1 - k = 1 := by omega
      simp [hr]
    · have hlt : k + 1 < e := by omega
      have hle : normSq (orbitZ c (k + 1)) ≤ 4 := hmin (k + 1) (by omega) hlt
      rw [mandelbrotAux, hstep, if_neg (not_lt.mpr hle)]
      rw [ih (k + 1) (acc ++ [orbitZ c k]) hlt (by omega)
        (fun j h1 h2 => hmin j (by omega) h2)]
      obtain ⟨d, hd⟩ : ∃ d, e - k = d + 1 := ⟨e - k - 1, by omega⟩
      have hd2 : e - (k + 1) = d := by omega
      rw [hd, hd2, List.range'_succ]
      simp

/-- C1: the recurrence starts the iterate at `c` itself and builds the orbit
iteration by iteration. If no iterate produced within the budget `n` ever
has squared magnitude above `4`, it returns the empty sequence; if `e ≤ n`
is the first update whose result exceeds squared magnitude `4`, it returns
at that point the non-empty sequence accumulated so far, namely the orbit
points of indices `0, …, e - 1`, whose head is `c`. -/
theorem mandelbrot_escape_characterization (c : Cplx) (n : ℕ) :
    ((∀ j, 1 ≤ j → j ≤ n → normSq (orbitZ c j) ≤ 4) → mandelbrot c n = [])
    ∧ (∀ e, 1 ≤ e → e ≤ n → 4 < normSq (orbitZ c e) →
        (∀ j, 1 ≤ j → j < e → normSq (orbitZ c j) ≤ 4) →
        mandelbrot c n = (List.range e).map (orbitZ c)
          ∧ mandelbrot c n ≠ [] ∧ (mandelbrot c n).head? = some c) := by
  constructor
  · intro h
    have := mandelbrotAux_no_escape c n 0 []
      (fun j h1 h2 => h j (by omega) (by omega))
    simpa [mandelbrot, orbitZ] using this
  · intro e he1 hen hesc hmin
    have := mandelbrotAux_escape c e hesc n 0 [] (by omega) (by omega)
      (fun j h1 h2 => hmin j (by omega) h2)
    have hm : mandelbrot c n = (List.range e).map (orbitZ c) := by
      simpa [mandelbrot, orbitZ, List.range_eq_range'] using this
    refine ⟨hm, ?_, ?_⟩
    · rw [hm]
      simp [List.range_eq_nil]
      omega
    · rw [hm]
      obtain ⟨d, hd⟩ : ∃ d, e = d + 1 := ⟨e - 1, by omega⟩
      rw [hd, List.range_succ_eq_map]
      simp [orbitZ]

/-- Concrete instantiation of C1's escape case: for `c = 3 + 0i` the first
update already escapes, so with budget `n = 2` the returned sequence is the
singleton `[c]`. -/
theorem mandelbrot_escape_characterization_witness :
    mandelbrot ((3 : ℚ), (0 : ℚ)) 2 = [((3 : ℚ), (0 : ℚ))]
    ∧ mandelbrot ((3 : ℚ), (0 : ℚ)) 2 ≠ [] := by
  have h := (mandelbrot_escape_characterization ((3 : ℚ), (0 : ℚ)) 2).2 1
    (by norm_num) (by norm_num)
    (by norm_num [orbitZ, cstep, normSq])
    (by intro j h1 h2; omega)
  refine ⟨?_, h.2.1⟩
  rw [h.1]
  rfl

/-- C4: a candidate with squared magnitude above `4` (that is, `|c| > 2`)
escapes on the very first update, so for any positive budget the returned
sequence is exactly `[c]`. -/
theorem mandelbrot_far_candidate (c : Cplx) (n : ℕ) (hn : 1 ≤ n)
    (hc : 4 < normSq c) : mandelbrot c n = [c] := by
  obtain ⟨m, rfl⟩ : ∃ m, n = m + 1 := ⟨n - 1, by omega⟩
  have hkey : normSq (cstep c c)
      = normSq c * ((c.1 + 1) * (c.1 + 1) + c.2 * c.2) := by
    simp only [normSq, cstep]
    ring
  have ht : 1 < (c.1 + 1) * (c.1 + 1) + c.2 * c.2 := by
    have h4 : 4 < c.1 * c.1 + c.2 * c.2 := hc
    nlinarith [sq_nonneg (c.1 + 2), sq_nonneg c.2]
  have hesc : 4 < normSq (cstep c c) := by
    rw [hkey]
    have hs : 4 < normSq c := hc
    nlinarith [mul_pos (by linarith : (0 : ℚ) < normSq c - 4)
      (by linarith : (0 : ℚ) < (c.1 + 1) * (c.1 + 1) + c.2 * c.2 - 1)]
  rw [mandelbrot, mandelbrotAux, if_pos hesc]
  simp

/-- Concrete instantiation of C4: `c = 3 + 0i`, `n = 1`. -/
theorem mandelbrot_far_candidate_witness :
    mandelbrot ((3 : ℚ), (0 : ℚ)) 1 = [((3 : ℚ), (0 : ℚ))] :=
  mandelbrot_far_candidate ((3 : ℚ), (0 : ℚ)) 1 (by norm_num)
    (by norm_num [normSq])

/-- Length bound for the loop: each pass appends one element, and the empty
list is returned on a completed loop. -/
theorem mandelbrotAux_length (c : Cplx) :
    ∀ (n : ℕ) (z : Cplx) (acc : List Cplx),
      (mandelbrotAux c n z acc).length ≤ acc.length + n := by
  intro n
  induction n with
  | zero => intro z acc; simp [mandelbrotAux]
  | succ n ih =>
    intro z acc
    rw [mandelbrotAux]
    by_cases h : 4 < normSq (cstep c z)
    · rw [if_pos h]; simp
    · rw [if_neg h]
      have := ih (cstep c z) (acc ++ [z])
      simp at this
      omega

/-- C9: the sequence returned by the recurrence has length at most `n`, and
a zero budget always yields the empty sequence. -/
theorem mandelbrot_length_le :
    (∀ (c : Cplx) (n : ℕ), (mandelbrot c n).length ≤ n)
    ∧ (∀ c : Cplx, mandelbrot c 0 = []) := by
  constructor
  · intro c n
    have := mandelbrotAux_length c n c []
    simpa [mandelbrot] using this
  · intro c; rfl

/-- The Rust `as i32` cast applied to an exact value: truncation toward
zero. On a normalized rational `num / den` (with `den > 0`) this is the
T-division `Int.div num den`, which rounds toward zero. -/
def truncToZero (q : ℚ) : ℤ := Int.tdiv q.num (q.den : ℤ)

/-- Truncation toward zero is the identity on whole numbers. -/
theorem truncToZero_natCast (n : ℕ) : truncToZero (n : ℚ) = n := by
  rw [truncToZero]
  simp [Rat.num_natCast, Rat.den_natCast, Int.tdiv]

/-- Evaluation helper: a rational shown equal to a whole number truncates
to that number. -/
theorem truncToZero_eq_of_eq_natCast {q : ℚ} {n : ℕ} (h : q = (n : ℚ)) :
    truncToZero q = n := by rw [h, truncToZero_natCast]

/-- The x pixel coordinate computed in the sampling loop of sample.rs:
`p = (z - center) / scale * 0.25 + 0.5` followed by `(p.re * width) as i32`.
The complex subtraction and the scalar division, multiplication and addition
are componentwise, modelled from the spec's collaborator contract. -/
def pixelRawX (w : ℕ) (center : Cplx) (scale : ℚ) (z : Cplx) : ℤ :=
  truncToZero (((z.1 - center.1) / scale * (1 / 4) + 1 / 2) * (w : ℚ))

/-- The y pixel coordinate: `(p.im * height) as i32` from the same loop. -/
def pixelRawY (h : ℕ) (center : Cplx) (scale : ℚ) (z : Cplx) : ℤ :=
  truncToZero (((z.2 - center.2) / scale * (1 / 4) + 1 / 2) * (h : ℚ))

/-- The bounds check of the sampling loop: `none` exactly when
`px < 0 || py < 0 || px >= width || py >= height` (the `continue` branch),
otherwise the accepted pixel coordinate pair. -/
def pixelOf (w h : ℕ) (center : Cplx) (scale : ℚ) (z : Cplx) : Option (ℕ × ℕ) :=
  if pixelRawX w center scale z < 0 ∨ pixelRawY h center scale z < 0
      ∨ (w : ℤ) ≤ pixelRawX w center scale z
      ∨ (h : ℤ) ≤ pixelRawY h center scale z
  then none
  else some ((pixelRawX w center scale z).toNat, (pixelRawY h center scale z).toNat)

/-- Modelled from the spec: the pixel-buffer collaborator (`src/images.rs`,
not among the core sources) is a grid of color cells addressed by `(x, y)`. -/
abbrev Image (α : Type) : Type := ℕ × ℕ → α

/-- Modelled from the spec: the collaborator's `add(coordinate, color)`
accumulates a color value at one pixel. -/
def Image.add {α : Type} [Color α] (im : Image α) (p : ℕ × ℕ) (v : α) :
    Image α :=
  fun q => if q = p then Color.add (im q) v else im q

/-- One pass of the per-trajectory-point loop in sample.rs: map the point to
pixel space, skip it when out of bounds, otherwise add
`T::one(ColorChannel::Red)` at that pixel of the worker-local buffer. The
result is `Option`-valued because `one` has a fatal branch on some arities. -/
def plotStep {α : Type} [Color α] (w h : ℕ) (center : Cplx) (scale : ℚ)
    (subim : Image α) (z : Cplx) : Option (Image α) :=
  (pixelOf w h center scale z).elim (some subim)
    (fun p => Option.map (fun u => Image.add subim p u) (Color.one ColorChannel.Red))

/-- The full `for z in trajectory` loop of sample.rs over a worker-local
buffer. -/
def plotTrajectory {α : Type} [Color α] (w h : ℕ) (center : Cplx)
    (scale : ℚ) : List Cplx → Image α → Option (Image α)
  | [], subim => some subim
  | z :: rest, subim =>
    (plotStep w h center scale subim z).elim none
      (fun b => plotTrajectory w h center scale rest b)

/-- C5: the loop accepts a trajectory point exactly when the pixel computed
as `trunc(((z - center) / scale * 0.25 + 0.5) * (width, height))` (truncating
toward zero) lies in `[0, width) × [0, height)`; a point mapping outside
those bounds yields no pixel and is silently discarded, leaving the
worker-local buffer unchanged. -/
theorem pixel_mapping_characterization {α : Type} [Color α] (w h : ℕ)
    (center : Cplx) (scale : ℚ) (z : Cplx) (subim : Image α) :
    (∀ a b : ℕ, pixelOf w h center scale z = some (a, b) ↔
      ((a : ℤ) = pixelRawX w center scale z
        ∧ (b : ℤ) = pixelRawY h center scale z ∧ a < w ∧ b < h))
    ∧ (pixelOf w h center scale z = none ↔
        (pixelRawX w center scale z < 0 ∨ pixelRawY h center scale z < 0
          ∨ (w : ℤ) ≤ pixelRawX w center scale z
          ∨ (h : ℤ) ≤ pixelRawY h center scale z))
    ∧ (pixelOf w h center scale z = none →
        plotStep w h center scale subim z = some subim) := by
  refine ⟨?_, ?_, ?_⟩
  · intro a b
    rw [pixelOf]
    by_cases hout : pixelRawX w center scale z < 0
        ∨ pixelRawY h center scale z < 0
        ∨ (w : ℤ) ≤ pixelRawX w center scale z
        ∨ (h : ℤ) ≤ pixelRawY h center scale z
    · rw [if_pos hout]
      simp only [reduceCtorEq, false_iff]
      intro hc
      omega
    · rw [if_neg hout]
      simp only [Option.some.injEq, Prod.mk.injEq]
      omega
  · rw [pixelOf]
    by_cases hout : pixelRawX w center scale z < 0
        ∨ pixelRawY h center scale z < 0
        ∨ (w : ℤ) ≤ pixelRawX w center scale z
        ∨ (h : ℤ) ≤ pixelRawY h center scale z
    · rw [if_pos hout]
      simpa using hout
    · rw [if_neg hout]
      simpa using hout
  · intro hnone
    simp [plotStep, hnone]

/-- Concrete instantiation of C5's discard case: with a 4×4 viewport,
`center = 0`, `scale = 1`, the trajectory point `100 + 100i` maps outside
the viewport, so it is discarded and the buffer is returned unchanged. -/
theorem pixel_mapping_characterization_witness :
    pixelOf 4 4 ((0 : ℚ), (0 : ℚ)) 1 ((100 : ℚ), (100 : ℚ)) = none
    ∧ plotStep (α := Rg) 4 4 ((0 : ℚ), (0 : ℚ)) 1 (fun _ => Rg.empty)
        ((100 : ℚ), (100 : ℚ)) = some (fun _ => Rg.empty) := by
  have hx : pixelRawX 4 ((0 : ℚ), (0 : ℚ)) 1 ((100 : ℚ), (100 : ℚ)) = 102 := by
    rw [pixelRawX]
    exact truncToZero_eq_of_eq_natCast (n := 102) (by push_cast; norm_num)
  have hy : pixelRawY 4 ((0 : ℚ), (0 : ℚ)) 1 ((100 : ℚ), (100 : ℚ)) = 102 := by
    rw [pixelRawY]
    exact truncToZero_eq_of_eq_natCast (n := 102) (by push_cast; norm_num)
  have hnone : pixelOf 4 4 ((0 : ℚ), (0 : ℚ)) 1 ((100 : ℚ), (100 : ℚ)) = none := by
    rw [pixelOf, hx, hy]
    norm_num
  exact ⟨hnone,
    (pixel_mapping_characterization (α := Rg) 4 4 ((0 : ℚ), (0 : ℚ)) 1
      ((100 : ℚ), (100 : ℚ)) (fun _ => Rg.empty)).2.2 hnone⟩

/-- C6: whenever a trajectory point maps to an in-bounds pixel `p`, the loop
adds exactly the unit value of the `Red` channel at `p` in the worker-local
buffer, for every color arity `α` (the selector is hard-coded to `Red`); on
the three concrete arities that unit value is `1.0`, `Rg(1, 0)` and
`Rgb(1, 0, 0)` respectively. -/
theorem plot_adds_unit_red {α : Type} [Color α] (w h : ℕ) (center : Cplx)
    (scale : ℚ) (z : Cplx) (subim : Image α) (p : ℕ × ℕ) (u : α)
    (hp : pixelOf w h center scale z = some p)
    (hu : Color.one ColorChannel.Red = some u) :
    plotStep w h center scale subim z = some (Image.add subim p u)
    ∧ plotTrajectory w h center scale [z] subim = some (Image.add subim p u)
    ∧ Color.one (α := Float) ColorChannel.Red = some 1
    ∧ Color.one (α := Rg) ColorChannel.Red = some (Rg.new 1 0)
    ∧ Color.one (α := Rgb) ColorChannel.Red = some (Rgb.new 1 0 0) := by
  have h1 : plotStep w h center scale subim z = some (Image.add subim p u) := by
    simp [plotStep, hp, hu]
  refine ⟨h1, ?_, rfl, rfl, rfl⟩
  simp [plotTrajectory, h1]

/-- Concrete instantiation of C6: on a 4×4 viewport with `center = 0` and
`scale = 1`, the point `0 + 0i` maps to pixel `(2, 2)` and the 2-channel
worker buffer receives exactly `Rg(1, 0)` there. -/
theorem plot_adds_unit_red_witness :
    plotStep (α := Rg) 4 4 ((0 : ℚ), (0 : ℚ)) 1 (fun _ => Rg.empty)
        ((0 : ℚ), (0 : ℚ))
      = some (Image.add (fun _ => Rg.empty) (2, 2) (Rg.new 1 0)) := by
  have hx : pixelRawX 4 ((0 : ℚ), (0 : ℚ)) 1 ((0 : ℚ), (0 : ℚ)) = 2 := by
    rw [pixelRawX]
    exact truncToZero_eq_of_eq_natCast (n := 2) (by push_cast; norm_num)
  have hy : pixelRawY 4 ((0 : ℚ), (0 : ℚ)) 1 ((0 : ℚ), (0 : ℚ)) = 2 := by
    rw [pixelRawY]
    exact truncToZero_eq_of_eq_natCast (n := 2) (by push_cast; norm_num)
  have hp : pixelOf 4 4 ((0 : ℚ), (0 : ℚ)) 1 ((0 : ℚ), (0 : ℚ)) = some (2, 2) := by
    rw [pixelOf, hx, hy]
    norm_num
    decide
  exact (plot_adds_unit_red 4 4 ((0 : ℚ), (0 : ℚ)) 1 ((0 : ℚ), (0 : ℚ))
    (fun _ => Rg.empty) (2, 2) (Rg.new 1 0) hp rfl).1

end Buddhabrot
